import Mathlib

/-!
Shallow embedding of the NCAA D3 women's soccer NPI ranking engine
(`myapp/models/official_soccer_npi.py`, class `OfficialSoccerNPI`).

Team state is an association list in insertion order, mirroring the Python
`defaultdict` keyed by team name (updating an existing key keeps its
position, touching a fresh key appends it).  NPI snapshots (`current_npis`,
`final_npis`) are partial maps `String → Option ℚ`; all float arithmetic of
the source is embedded over `ℚ`.  The Python `list.sort(key=..., reverse=True)`
call is a stable descending sort; it is embedded as a structural stable
insertion sort, which computes the same list.
-/

namespace NPI

/-- Game record: the `game_data` dict built in `add_game`.  `winner`/`loser`
are `None` (here `none`) for ties; `is_tie` in the source is definable as
`winner = none`. -/
structure Game where
  home_team : String
  away_team : String
  home_score : Int
  away_score : Int
  winner : Option String
  loser : Option String
  deriving Repr, DecidableEq

/-- One entry of a team's `quality_wins` list as appended in
`calculate_quality_win_bonus`. -/
structure QualityWin where
  opponent : String
  opponent_npi : ℚ
  qwb_amount : ℚ
  deriving Repr, DecidableEq

/-- Per-team aggregate state: the `defaultdict` value in
`OfficialSoccerNPI.__init__`. -/
structure TeamRecord where
  wins : Nat
  losses : Nat
  ties : Nat
  opponents : List String
  quality_wins : List QualityWin
  games : List Game
  deriving Repr, DecidableEq

/-- The fresh record produced by the `defaultdict` factory. -/
def TeamRecord.fresh : TeamRecord :=
  { wins := 0, losses := 0, ties := 0, opponents := [], quality_wins := [], games := [] }

/-- A snapshot of per-team NPI estimates (`current_npis` / `final_npis`):
a partial map from team name to value. -/
def Snapshot : Type := String → Option ℚ

/-- The empty snapshot (`{}` in Python). -/
def Snapshot.empty : Snapshot := fun _ => none

/-- `snap[name] = v` on a Python dict. -/
def Snapshot.set (snap : Snapshot) (name : String) (v : ℚ) : Snapshot :=
  fun m => if m = name then some v else snap m

/-- Engine state: the `teams` mapping (insertion-ordered association list)
together with the stored `final_npis`. -/
structure EngineState where
  teams : List (String × TeamRecord)
  final_npis : Snapshot

/-- A freshly constructed engine (`OfficialSoccerNPI()`). -/
def EngineState.init : EngineState := { teams := [], final_npis := Snapshot.empty }

/-- Dictionary lookup on the association list (first binding wins, as keys
are unique by construction). -/
def findTeam : List (String × TeamRecord) → String → Option TeamRecord
  | [], _ => none
  | p :: ps, n => if p.1 = n then some p.2 else findTeam ps n

/-- `team_name in self.teams`. -/
def hasTeam (s : EngineState) (n : String) : Bool := (findTeam s.teams n).isSome

/-- `self.teams[team_name]` as a read: the stored record, or the
`defaultdict` factory's fresh record. -/
def lookupTeam (s : EngineState) (n : String) : TeamRecord :=
  (findTeam s.teams n).getD TeamRecord.fresh

/-- A read-modify-write of `self.teams[team_name]` (a `defaultdict`): an
existing key is updated in place, a fresh key is appended with the modified
fresh record. -/
def modifyTeam (s : EngineState) (n : String) (f : TeamRecord → TeamRecord) : EngineState :=
  if hasTeam s n then
    { s with teams := s.teams.map (fun p => if p.1 = n then (p.1, f p.2) else p) }
  else
    { s with teams := s.teams ++ [(n, f TeamRecord.fresh)] }

/-! Official NCAA parameters set in `__init__`. -/

def WIN_PERCENTAGE_WEIGHT : ℚ := 20 / 100
def STRENGTH_OF_SCHEDULE_WEIGHT : ℚ := 80 / 100
def QUALITY_WIN_BASE : ℚ := 54
def QUALITY_WIN_MULTIPLIER : ℚ := 500 / 1000
def MINIMUM_WINS : ℚ := 8
def TIE_WIN_VALUE : ℚ := 1 / 3

/-- `add_game(home_team, away_team, home_score, away_score)`: outcome
counters, then the two opponent-list appends, then the shared game record
appended to both game lists.  No validation is performed by the source. -/
def add_game (s : EngineState) (home_team away_team : String)
    (home_score away_score : Int) : EngineState :=
  let s1 :=
    if home_score > away_score then
      modifyTeam (modifyTeam s home_team (fun r => { r with wins := r.wins + 1 }))
        away_team (fun r => { r with losses := r.losses + 1 })
    else if away_score > home_score then
      modifyTeam (modifyTeam s away_team (fun r => { r with wins := r.wins + 1 }))
        home_team (fun r => { r with losses := r.losses + 1 })
    else
      modifyTeam (modifyTeam s home_team (fun r => { r with ties := r.ties + 1 }))
        away_team (fun r => { r with ties := r.ties + 1 })
  let winner : Option String :=
    if home_score > away_score then some home_team
    else if away_score > home_score then some away_team
    else none
  let loser : Option String :=
    if home_score > away_score then some away_team
    else if away_score > home_score then some home_team
    else none
  let game_data : Game :=
    { home_team := home_team, away_team := away_team,
      home_score := home_score, away_score := away_score,
      winner := winner, loser := loser }
  let s2 := modifyTeam s1 home_team (fun r => { r with opponents := r.opponents ++ [away_team] })
  let s3 := modifyTeam s2 away_team (fun r => { r with opponents := r.opponents ++ [home_team] })
  let s4 := modifyTeam s3 home_team (fun r => { r with games := r.games ++ [game_data] })
  modifyTeam s4 away_team (fun r => { r with games := r.games ++ [game_data] })

/-- `calculate_winning_percentage`: adjusted wins over total games with the
zero-games guard. -/
def calculate_winning_percentage (s : EngineState) (team_name : String) : ℚ :=
  let team := lookupTeam s team_name
  let adjusted_wins : ℚ := (team.wins : ℚ) + (team.ties : ℚ) * TIE_WIN_VALUE
  let total_games : Nat := team.wins + team.losses + team.ties
  if total_games = 0 then 0 else adjusted_wins / (total_games : ℚ)

/-- `calculate_strength_of_schedule`: running total and count over the
opponent list, skipping opponents absent from the snapshot, with the two
zero guards of the source. -/
def calculate_strength_of_schedule (s : EngineState) (team_name : String)
    (current_npis : Snapshot) : ℚ :=
  let opponents := (lookupTeam s team_name).opponents
  if opponents = [] then 0
  else
    let acc := opponents.foldl
      (fun (p : ℚ × Nat) opponent =>
        match current_npis opponent with
        | some v => (p.1 + v, p.2 + 1)
        | none => p)
      (0, 0)
    if acc.2 = 0 then 0 else acc.1 / (acc.2 : ℚ)

/-- Body of `calculate_quality_win_bonus`: returns the bonus total together
with the rebuilt `quality_wins` list (the source resets the list and appends
to it while accumulating the total). -/
def calculate_quality_win_bonus (s : EngineState) (team_name : String)
    (final_npis : Snapshot) : ℚ × List QualityWin :=
  (lookupTeam s team_name).games.foldl
    (fun (p : ℚ × List QualityWin) game =>
      if game.winner = some team_name then
        let opponent :=
          if game.home_team = team_name then game.away_team else game.home_team
        match final_npis opponent with
        | some v =>
          if v ≥ QUALITY_WIN_BASE then
            let qwb_amount := (v - QUALITY_WIN_BASE) * QUALITY_WIN_MULTIPLIER
            (p.1 + qwb_amount, p.2 ++ [{ opponent := opponent, opponent_npi := v, qwb_amount := qwb_amount }])
          else p
        | none => p
      else p)
    (0, [])

/-- Insertion-order key list (`list(self.teams.keys())`). -/
def team_names (s : EngineState) : List String := s.teams.map Prod.fst

/-- The bonus-free NPI formula of the iteration body:
`WIN_PERCENTAGE_WEIGHT * win_pct * 100 + STRENGTH_OF_SCHEDULE_WEIGHT * sos`. -/
def base_npi (s : EngineState) (team_name : String) (snap : Snapshot) : ℚ :=
  WIN_PERCENTAGE_WEIGHT * calculate_winning_percentage s team_name * 100 +
    STRENGTH_OF_SCHEDULE_WEIGHT * calculate_strength_of_schedule s team_name snap

/-- One round of the convergence loop (`for team_name in team_names: ...`):
the working map `current_npis` is read for SOS and written in place as the
loop walks the team list. -/
def npi_round (s : EngineState) (names : List String) (cur : Snapshot) : Snapshot :=
  names.foldl (fun acc n => acc.set n (base_npi s n acc)) cur

/-- The convergence metric: maximum absolute per-team change between the
pre-round snapshot and the post-round map (each `current_npis[team]` access
is of a present key in the source; absent keys read as 0 here). -/
def max_change (names : List String) (prev cur : Snapshot) : ℚ :=
  names.foldl (fun m n => max m |((cur n).getD 0) - ((prev n).getD 0)|) 0

/-- The `for iteration in range(max_iterations)` loop with its convergence
break: fuel-indexed recursion on the remaining iteration count. -/
def npi_iterate (s : EngineState) (names : List String) (thr : ℚ) :
    Snapshot → Nat → Snapshot
  | cur, 0 => cur
  | cur, k + 1 =>
    let next := npi_round s names cur
    if max_change names cur next < thr then next
    else npi_iterate s names thr next k

/-- Number of loop rounds the source executes before breaking or exhausting
the cap; defined alongside `npi_iterate` for the termination analysis. -/
def npi_rounds_used (s : EngineState) (names : List String) (thr : ℚ) :
    Snapshot → Nat → Nat
  | _, 0 => 0
  | cur, k + 1 =>
    let next := npi_round s names cur
    if max_change names cur next < thr then 1
    else 1 + npi_rounds_used s names thr next k

/-- Initialization of `current_npis`: each team's winning percentage scaled
to the 0-100 range, inserted in key order into an empty dict. -/
def initial_npis (s : EngineState) : Snapshot :=
  (team_names s).foldl
    (fun acc n => acc.set n (calculate_winning_percentage s n * 100))
    Snapshot.empty

/-- One row of the `final_results` list. -/
structure TeamResult where
  team : String
  npi : ℚ
  wins : Nat
  losses : Nat
  ties : Nat
  win_percentage : ℚ
  strength_of_schedule : ℚ
  quality_win_bonus : ℚ
  quality_wins_count : Nat
  quality_wins : List QualityWin
  total_games : Nat
  tournament_eligible : Bool
  rank : Nat
  deriving Repr, DecidableEq

/-- One pass of the result-assembly loop of `calculate_npi` for a single
team: win percentage, SOS and QWB against the frozen final map; the QWB call
rewrites that team's `quality_wins` list in the engine state as it does in
the source. -/
def build_step (final : Snapshot) (p : List TeamResult × EngineState)
    (team_name : String) : List TeamResult × EngineState :=
  let s := p.2
  let win_pct := calculate_winning_percentage s team_name
  let sos := calculate_strength_of_schedule s team_name final
  let qwbPair := calculate_quality_win_bonus s team_name final
  let s' := modifyTeam s team_name (fun r => { r with quality_wins := qwbPair.2 })
  let team := lookupTeam s' team_name
  let final_npi := WIN_PERCENTAGE_WEIGHT * win_pct * 100 +
    STRENGTH_OF_SCHEDULE_WEIGHT * sos + qwbPair.1
  (p.1 ++ [{ team := team_name, npi := final_npi,
             wins := team.wins, losses := team.losses, ties := team.ties,
             win_percentage := win_pct, strength_of_schedule := sos,
             quality_win_bonus := qwbPair.1,
             quality_wins_count := team.quality_wins.length,
             quality_wins := team.quality_wins,
             total_games := team.wins + team.losses + team.ties,
             tournament_eligible := decide ((team.wins : ℚ) ≥ MINIMUM_WINS),
             rank := 0 }], s')

/-- The result-assembly loop of `calculate_npi` (lines building
`final_results`). -/
def build_results (s0 : EngineState) (names : List String) (final : Snapshot) :
    List TeamResult × EngineState :=
  names.foldl (build_step final) ([], s0)

/-- Stable descending insertion by `npi`: an existing element stays in front
of the inserted one whenever its `npi` is at least as large, so equal keys
keep their original relative order — the contract of Python's stable
`list.sort(key=..., reverse=True)`. -/
def insertByNpi (r : TeamResult) : List TeamResult → List TeamResult
  | [] => [r]
  | x :: xs => if r.npi ≤ x.npi then x :: insertByNpi r xs else r :: x :: xs

/-- `final_results.sort(key=lambda x: x['npi'], reverse=True)` as a stable
descending sort. -/
def sortByNpi (l : List TeamResult) : List TeamResult :=
  l.foldl (fun acc r => insertByNpi r acc) []

/-- `for i, team_result in enumerate(final_results, 1): team_result['rank'] = i`. -/
def addRanks : Nat → List TeamResult → List TeamResult
  | _, [] => []
  | i, r :: rs => { r with rank := i } :: addRanks (i + 1) rs

/-- `calculate_npi(max_iterations=50, convergence_threshold=0.001)`: empty
guard, initialization, the convergence loop, freezing `final_npis`, the
QWB/result-assembly pass, the descending sort and the 1-based ranks.
Returns the rankings together with the mutated engine state. -/
def calculate_npi (s : EngineState) (max_iterations : Nat) (convergence_threshold : ℚ) :
    List TeamResult × EngineState :=
  if s.teams = [] then ([], s)
  else
    let names := team_names s
    let final := npi_iterate s names convergence_threshold (initial_npis s) max_iterations
    let s1 : EngineState := { s with final_npis := final }
    let p := build_results s1 names final
    let ranked := addRanks 1 (sortByNpi p.1)
    (ranked, p.2)

/-- Default arguments of `calculate_npi`. -/
def DEFAULT_MAX_ITERATIONS : Nat := 50
def DEFAULT_CONVERGENCE_THRESHOLD : ℚ := 1 / 1000

/-- The summary dict built by `get_team_summary`. -/
structure TeamSummary where
  team : String
  record : String
  win_percentage : ℚ
  strength_of_schedule : ℚ
  quality_win_bonus : ℚ
  opponents : List String
  quality_wins : List QualityWin
  tournament_eligible : Bool
  deriving Repr, DecidableEq

/-- `get_team_summary(team_name)`: `None` for an unknown name (the
membership test does not create a record); otherwise the populated summary,
whose QWB call rewrites the team's `quality_wins` list. -/
def get_team_summary (s : EngineState) (team_name : String) :
    Option TeamSummary × EngineState :=
  if hasTeam s team_name then
    let team := lookupTeam s team_name
    let win_pct := calculate_winning_percentage s team_name
    let sos := calculate_strength_of_schedule s team_name s.final_npis
    let qwbPair := calculate_quality_win_bonus s team_name s.final_npis
    let s' := modifyTeam s team_name (fun r => { r with quality_wins := qwbPair.2 })
    (some { team := team_name,
            record := toString team.wins ++ "-" ++ toString team.losses ++ "-" ++ toString team.ties,
            win_percentage := win_pct,
            strength_of_schedule := sos,
            quality_win_bonus := qwbPair.1,
            opponents := (lookupTeam s' team_name).opponents,
            quality_wins := (lookupTeam s' team_name).quality_wins,
            tournament_eligible := decide ((team.wins : ℚ) ≥ MINIMUM_WINS) }, s')
  else (none, s)

end NPI

namespace NPI

/-! Basic lemmas about the association-list dictionary. -/

theorem findTeam_map_modify (l : List (String × TeamRecord)) (n m : String)
    (f : TeamRecord → TeamRecord) :
    findTeam (l.map fun p => if p.1 = n then (p.1, f p.2) else p) m =
      if m = n then (findTeam l n).map f else findTeam l m := by
  induction l with
  | nil => by_cases h : m = n <;> simp [findTeam, h]
  | cons p ps ih =>
    by_cases hpn : p.1 = n
    · by_cases hmn : m = n
      · subst hmn
        simp [findTeam, hpn, ih]
      · have h1 : ¬ p.1 = m := fun h => hmn (h ▸ hpn)
        have h2 : ¬ n = m := fun h => hmn h.symm
        simp [findTeam, hpn, hmn, h1, h2, ih]
    · by_cases hmn : m = n
      · subst hmn
        simp [findTeam, hpn, ih]
      · simp [findTeam, hpn, hmn, ih]

theorem findTeam_append (l₁ l₂ : List (String × TeamRecord)) (n : String) :
    findTeam (l₁ ++ l₂) n =
      match findTeam l₁ n with
      | some r => some r
      | none => findTeam l₂ n := by
  induction l₁ with
  | nil => simp [findTeam]
  | cons p ps ih =>
    by_cases hpn : p.1 = n
    · simp [findTeam, hpn]
    · simp [findTeam, hpn, ih]

theorem findTeam_modifyTeam (s : EngineState) (n : String)
    (f : TeamRecord → TeamRecord) (m : String) :
    findTeam (modifyTeam s n f).teams m =
      if m = n then some (f (lookupTeam s n)) else findTeam s.teams m := by
  unfold modifyTeam
  cases h : hasTeam s n
  · simp only [h, Bool.false_eq_true, if_false, findTeam_append]
    by_cases hmn : m = n
    · subst hmn
      unfold hasTeam at h
      unfold lookupTeam
      cases hfind : findTeam s.teams m with
      | none => simp [hfind, findTeam]
      | some r => rw [hfind] at h; simp at h
    · have h2 : ¬ n = m := fun h => hmn h.symm
      cases hfind : findTeam s.teams m with
      | none => simp [hfind, findTeam, hmn, h2]
      | some r => simp [hfind, hmn]
  · simp only [h, if_true, findTeam_map_modify]
    by_cases hmn : m = n
    · subst hmn
      unfold hasTeam at h
      unfold lookupTeam
      cases hfind : findTeam s.teams m with
      | none => rw [hfind] at h; simp at h
      | some r => simp [hfind]
    · simp [hmn]

theorem lookupTeam_modifyTeam (s : EngineState) (n : String)
    (f : TeamRecord → TeamRecord) (m : String) :
    lookupTeam (modifyTeam s n f) m =
      if m = n then f (lookupTeam s n) else lookupTeam s m := by
  unfold lookupTeam
  rw [findTeam_modifyTeam]
  by_cases hmn : m = n <;> simp [hmn, lookupTeam]

theorem hasTeam_modifyTeam (s : EngineState) (n : String)
    (f : TeamRecord → TeamRecord) (m : String) :
    hasTeam (modifyTeam s n f) m = (hasTeam s m || decide (m = n)) := by
  unfold hasTeam
  rw [findTeam_modifyTeam]
  by_cases hmn : m = n <;> simp [hmn]

theorem final_npis_modifyTeam (s : EngineState) (n : String)
    (f : TeamRecord → TeamRecord) :
    (modifyTeam s n f).final_npis = s.final_npis := by
  unfold modifyTeam
  cases h : hasTeam s n <;> simp [h]

end NPI

namespace NPI

/-! Fold characterizations of the per-team arithmetic. -/

theorem sos_foldl_characterization (snap : Snapshot) (ops : List String) (a : ℚ) (c : Nat) :
    ops.foldl
      (fun (p : ℚ × Nat) opponent =>
        match snap opponent with
        | some v => (p.1 + v, p.2 + 1)
        | none => p)
      (a, c) =
      (a + ((ops.filter (fun o => (snap o).isSome)).map (fun o => (snap o).getD 0)).sum,
       c + (ops.filter (fun o => (snap o).isSome)).length) := by
  induction ops generalizing a c with
  | nil => simp
  | cons o rest ih =>
    cases h : snap o with
    | none => simp [h, ih]
    | some v =>
      simp only [List.foldl_cons, h, ih, List.filter_cons, h, Option.isSome_some, if_true]
      simp [h, add_assoc, Nat.add_comm]

theorem qwb_foldl_characterization (team_name : String)
    (snap : Snapshot) (gs : List Game) (t : ℚ) (l : List QualityWin) :
    (gs.foldl
      (fun (p : ℚ × List QualityWin) game =>
        if game.winner = some team_name then
          let opponent :=
            if game.home_team = team_name then game.away_team else game.home_team
          match snap opponent with
          | some v =>
            if v ≥ QUALITY_WIN_BASE then
              let qwb_amount := (v - QUALITY_WIN_BASE) * QUALITY_WIN_MULTIPLIER
              (p.1 + qwb_amount, p.2 ++ [{ opponent := opponent, opponent_npi := v, qwb_amount := qwb_amount }])
            else p
          | none => p
        else p)
      (t, l)).1 =
      t + (gs.map (fun game =>
        if game.winner = some team_name then
          match snap (if game.home_team = team_name then game.away_team else game.home_team) with
          | some v =>
            if v ≥ QUALITY_WIN_BASE then (v - QUALITY_WIN_BASE) * QUALITY_WIN_MULTIPLIER else 0
          | none => 0
        else 0)).sum := by
  induction gs generalizing t l with
  | nil => simp
  | cons g rest ih =>
    by_cases hw : g.winner = some team_name
    · cases hs : snap (if g.home_team = team_name then g.away_team else g.home_team) with
      | none => simp [hw, hs, ih]
      | some v =>
        by_cases hq : v ≥ QUALITY_WIN_BASE
        · simp [hw, hs, hq, ih, add_assoc]
        · simp [hw, hs, hq, ih]
    · simp [hw, ih]

end NPI

namespace NPI

/-- A season where team W goes 3-0-1 (three wins, one tie). -/
def ex301 : EngineState :=
  add_game (add_game (add_game (add_game EngineState.init "W" "X" 2 0) "W" "Y" 1 0)
    "W" "Z" 3 1) "W" "V" 2 2

/-- General closed form of `calculate_winning_percentage`. -/
theorem winning_percentage_eq_formula (s : EngineState) (name : String) :
    calculate_winning_percentage s name =
      if (lookupTeam s name).wins + (lookupTeam s name).losses + (lookupTeam s name).ties = 0
      then 0
      else (((lookupTeam s name).wins : ℚ) + ((lookupTeam s name).ties : ℚ) * (1 / 3)) /
        (((lookupTeam s name).wins : ℚ) + ((lookupTeam s name).losses : ℚ) +
          ((lookupTeam s name).ties : ℚ)) := by
  unfold calculate_winning_percentage TIE_WIN_VALUE
  by_cases h : (lookupTeam s name).wins + (lookupTeam s name).losses + (lookupTeam s name).ties = 0
  · simp [h]
  · rw [if_neg h, if_neg h]
    push_cast
    ring_nf

/-- C4: `calculate_winning_percentage` returns `(W + T/3) / (W + L + T)` for a
team with positive game count and `0` for a team with no games; a 3-0-1 record
yields exactly `(3 + 1/3) / 4`. -/
theorem winning_percentage_formula :
    (∀ (s : EngineState) (name : String),
      calculate_winning_percentage s name =
        if (lookupTeam s name).wins + (lookupTeam s name).losses + (lookupTeam s name).ties = 0
        then 0
        else (((lookupTeam s name).wins : ℚ) + ((lookupTeam s name).ties : ℚ) * (1 / 3)) /
          (((lookupTeam s name).wins : ℚ) + ((lookupTeam s name).losses : ℚ) +
            ((lookupTeam s name).ties : ℚ))) ∧
    calculate_winning_percentage ex301 "W" = (3 + 1 / 3) / 4 := by
  constructor
  · exact winning_percentage_eq_formula
  · have hw : (lookupTeam ex301 "W").wins = 3 := by decide
    have hl : (lookupTeam ex301 "W").losses = 0 := by decide
    have ht : (lookupTeam ex301 "W").ties = 1 := by decide
    rw [winning_percentage_eq_formula, hw, hl, ht]
    norm_num

/-- C5: strength of schedule is the arithmetic mean of the snapshot values of
the opponent-list entries present in the snapshot (duplicates counted once per
appearance); absent entries contribute to neither numerator nor denominator,
and when no entry is present (in particular for an empty opponent list) the
result is `0`. -/
theorem strength_of_schedule_is_mean_of_present
    (s : EngineState) (name : String) (snap : Snapshot) :
    calculate_strength_of_schedule s name snap =
      if ((lookupTeam s name).opponents.filter (fun o => (snap o).isSome)) = []
      then 0
      else (((lookupTeam s name).opponents.filter (fun o => (snap o).isSome)).map
          (fun o => (snap o).getD 0)).sum /
        ((((lookupTeam s name).opponents.filter (fun o => (snap o).isSome)).length : ℚ)) := by
  unfold calculate_strength_of_schedule
  by_cases hops : (lookupTeam s name).opponents = []
  · simp [hops]
  · rw [if_neg hops]
    rw [sos_foldl_characterization]
    simp only [zero_add, Nat.zero_add]
    by_cases hpres : ((lookupTeam s name).opponents.filter (fun o => (snap o).isSome)) = []
    · simp [hpres]
    · have hlen : ((lookupTeam s name).opponents.filter (fun o => (snap o).isSome)).length ≠ 0 := by
        simpa [List.length_eq_zero] using hpres
      rw [if_neg hlen, if_neg hpres]

/-- Season with a single game: A beats B. -/
def exOneWin : EngineState := add_game EngineState.init "A" "B" 1 0

/-- A final-NPI map giving B the value 60. -/
def snapB60 : Snapshot := Snapshot.set Snapshot.empty "B" 60

/-- General closed form of the quality-win-bonus total. -/
theorem qwb_eq_sum (s : EngineState) (name : String) (snap : Snapshot) :
    (calculate_quality_win_bonus s name snap).1 =
      ((lookupTeam s name).games.map (fun game =>
        if game.winner = some name then
          match snap (if game.home_team = name then game.away_team else game.home_team) with
          | some v =>
            if v ≥ QUALITY_WIN_BASE then (v - QUALITY_WIN_BASE) * QUALITY_WIN_MULTIPLIER else 0
          | none => 0
        else 0)).sum := by
  unfold calculate_quality_win_bonus
  rw [qwb_foldl_characterization]
  simp

/-- C6: the quality-win bonus is the sum, over the games whose stored `winner`
field equals the team's name and whose opponent is present in the map with an
NPI of at least 54, of `(opponent NPI - 54) * 0.5`; all other games contribute
`0`.  A team whose only win is against an opponent with final NPI 60 gets
exactly 3. -/
theorem quality_win_bonus_formula :
    (∀ (s : EngineState) (name : String) (snap : Snapshot),
      (calculate_quality_win_bonus s name snap).1 =
        ((lookupTeam s name).games.map (fun game =>
          if game.winner = some name then
            match snap (if game.home_team = name then game.away_team else game.home_team) with
            | some v =>
              if v ≥ QUALITY_WIN_BASE then (v - QUALITY_WIN_BASE) * QUALITY_WIN_MULTIPLIER else 0
            | none => 0
          else 0)).sum) ∧
    (calculate_quality_win_bonus exOneWin "A" snapB60).1 = 3 := by
  constructor
  · exact qwb_eq_sum
  · have hg : (lookupTeam exOneWin "A").games =
        [{ home_team := "A", away_team := "B", home_score := 1, away_score := 0,
           winner := some "A", loser := some "B" }] := by decide
    rw [qwb_eq_sum, hg]
    simp only [List.map_cons, List.map_nil, List.sum_cons, List.sum_nil]
    simp [snapB60, Snapshot.set, Snapshot.empty]
    rw [if_pos (by norm_num [QUALITY_WIN_BASE] : (60:ℚ) ≥ QUALITY_WIN_BASE)]
    unfold QUALITY_WIN_BASE QUALITY_WIN_MULTIPLIER
    norm_num

/-- C2 (code bug): `add_game` performs no validation.  A self-game is accepted
and mutates state (the team gets both a win and a loss, two opponent entries
and two game entries), and negative scores are accepted and scored as an
ordinary win for the larger score. -/
theorem add_game_accepts_malformed_input :
    lookupTeam (add_game EngineState.init "A" "A" 1 0) "A" =
      { wins := 1, losses := 1, ties := 0, opponents := ["A", "A"], quality_wins := [],
        games := [{ home_team := "A", away_team := "A", home_score := 1, away_score := 0,
                    winner := some "A", loser := some "A" },
                  { home_team := "A", away_team := "A", home_score := 1, away_score := 0,
                    winner := some "A", loser := some "A" }] } ∧
    (add_game EngineState.init "A" "A" 1 0).teams ≠ EngineState.init.teams ∧
    (lookupTeam (add_game EngineState.init "C" "D" (-1) (-2)) "C").wins = 1 ∧
    (lookupTeam (add_game EngineState.init "C" "D" (-1) (-2)) "D").losses = 1 := by
  refine ⟨by decide, by decide, by decide, by decide⟩

end NPI

namespace NPI

/-- The round update as the spec describes it (synchronous/Jacobi): every
team's new value is computed from the snapshot taken at the start of the
round.  Defined from the spec's words for comparison with the source's
in-place round `npi_round`. -/
def npi_round_jacobi (s : EngineState) (names : List String) (cur : Snapshot) : Snapshot :=
  names.foldl (fun acc n => acc.set n (base_npi s n cur)) cur

theorem wp_exOneWin_A : calculate_winning_percentage exOneWin "A" = 1 := by
  have hw : (lookupTeam exOneWin "A").wins = 1 := by decide
  have hl : (lookupTeam exOneWin "A").losses = 0 := by decide
  have ht : (lookupTeam exOneWin "A").ties = 0 := by decide
  rw [winning_percentage_eq_formula, hw, hl, ht]
  norm_num

theorem wp_exOneWin_B : calculate_winning_percentage exOneWin "B" = 0 := by
  have hw : (lookupTeam exOneWin "B").wins = 0 := by decide
  have hl : (lookupTeam exOneWin "B").losses = 1 := by decide
  have ht : (lookupTeam exOneWin "B").ties = 0 := by decide
  rw [winning_percentage_eq_formula, hw, hl, ht]
  norm_num

theorem initial_exOneWin (m : String) :
    initial_npis exOneWin m =
      if m = "B" then some 0 else if m = "A" then some 100 else none := by
  unfold initial_npis
  rw [show team_names exOneWin = ["A", "B"] by decide]
  simp only [List.foldl_cons, List.foldl_nil]
  simp only [Snapshot.set, Snapshot.empty]
  rw [wp_exOneWin_A, wp_exOneWin_B]
  norm_num

theorem base_npi_exOneWin_A_initial :
    base_npi exOneWin "A" (initial_npis exOneWin) = 20 := by
  unfold base_npi
  rw [wp_exOneWin_A, strength_of_schedule_is_mean_of_present]
  rw [show (lookupTeam exOneWin "A").opponents = ["B"] by decide]
  have hB : initial_npis exOneWin "B" = some 0 := by rw [initial_exOneWin]; norm_num
  simp only [List.filter_cons, List.filter_nil, hB, Option.isSome_some, if_true,
    List.map_cons, List.map_nil, List.sum_cons, List.sum_nil, Option.getD_some]
  norm_num [WIN_PERCENTAGE_WEIGHT, STRENGTH_OF_SCHEDULE_WEIGHT]

theorem base_npi_exOneWin_B_after_A :
    base_npi exOneWin "B" ((initial_npis exOneWin).set "A" 20) = 16 := by
  unfold base_npi
  rw [wp_exOneWin_B, strength_of_schedule_is_mean_of_present]
  rw [show (lookupTeam exOneWin "B").opponents = ["A"] by decide]
  have hA : ((initial_npis exOneWin).set "A" 20) "A" = some 20 := by
    simp [Snapshot.set]
  simp only [List.filter_cons, List.filter_nil, hA, Option.isSome_some, if_true,
    List.map_cons, List.map_nil, List.sum_cons, List.sum_nil, Option.getD_some]
  norm_num [WIN_PERCENTAGE_WEIGHT, STRENGTH_OF_SCHEDULE_WEIGHT]

theorem base_npi_exOneWin_B_initial :
    base_npi exOneWin "B" (initial_npis exOneWin) = 80 := by
  unfold base_npi
  rw [wp_exOneWin_B, strength_of_schedule_is_mean_of_present]
  rw [show (lookupTeam exOneWin "B").opponents = ["A"] by decide]
  have hA : initial_npis exOneWin "A" = some 100 := by rw [initial_exOneWin]; simp
  simp only [List.filter_cons, List.filter_nil, hA, Option.isSome_some, if_true,
    List.map_cons, List.map_nil, List.sum_cons, List.sum_nil, Option.getD_some]
  norm_num [WIN_PERCENTAGE_WEIGHT, STRENGTH_OF_SCHEDULE_WEIGHT]

/-- C1 counterexample: in the season where A beat B, the first round of the
source's iteration gives B the value 16 — computed against A's value already
updated in the same round — while the value computed from the start-of-round
snapshot (the Jacobi update the claim asserts) is 80.  The source round and
the synchronous round are therefore different functions. -/
theorem npi_round_uses_within_round_updates :
    npi_round exOneWin (team_names exOneWin) (initial_npis exOneWin) "B" = some 16 ∧
    npi_round_jacobi exOneWin (team_names exOneWin) (initial_npis exOneWin) "B" = some 80 ∧
    npi_round exOneWin (team_names exOneWin) (initial_npis exOneWin) ≠
      npi_round_jacobi exOneWin (team_names exOneWin) (initial_npis exOneWin) := by
  have h16 : npi_round exOneWin (team_names exOneWin) (initial_npis exOneWin) "B" = some 16 := by
    rw [show team_names exOneWin = ["A", "B"] by decide]
    unfold npi_round
    simp only [List.foldl_cons, List.foldl_nil]
    rw [base_npi_exOneWin_A_initial]
    show Snapshot.set _ "B" _ "B" = some 16
    rw [show ∀ v, Snapshot.set ((initial_npis exOneWin).set "A" 20) "B" v "B" = some v by
      intro v; simp [Snapshot.set]]
    rw [base_npi_exOneWin_B_after_A]
  have h80 : npi_round_jacobi exOneWin (team_names exOneWin) (initial_npis exOneWin) "B" = some 80 := by
    rw [show team_names exOneWin = ["A", "B"] by decide]
    unfold npi_round_jacobi
    simp only [List.foldl_cons, List.foldl_nil]
    rw [show ∀ v w, Snapshot.set (Snapshot.set (initial_npis exOneWin) "A" v) "B" w "B" = some w by
      intro v w; simp [Snapshot.set]]
    rw [base_npi_exOneWin_B_initial]
  refine ⟨h16, h80, fun h => ?_⟩
  rw [h, h80] at h16
  have : (80 : ℚ) = 16 := by injection h16
  norm_num at this

/-- Evaluating the source's round at a name not updated later in the walk
leaves the just-written value in place. -/
theorem npi_round_apply_notin (s : EngineState) (names : List String)
    (acc : Snapshot) (t : String) (h : t ∉ names) :
    npi_round s names acc t = acc t := by
  induction names generalizing acc with
  | nil => rfl
  | cons n rest ih =>
    have hn : t ≠ n := fun ht => h (ht ▸ List.mem_cons_self n rest)
    have hrest : t ∉ rest := fun ht => h (List.mem_cons_of_mem n ht)
    unfold npi_round at ih ⊢
    simp only [List.foldl_cons]
    rw [ih _ hrest]
    simp [Snapshot.set, hn]

/-- C1 amended: the source's round is sequential (Gauss-Seidel).  A team at
position `i` of the iteration order receives the base-NPI formula evaluated
against the working map in which exactly the teams at positions before `i`
have already been updated this round (stated for a team that does not occur
again later in the order; the map of pre-round values enters only through
those earlier updates). -/
theorem npi_round_gauss_seidel (s : EngineState) (cur : Snapshot)
    (pre post : List String) (t : String) (h : t ∉ post) :
    npi_round s (pre ++ t :: post) cur t =
      some (base_npi s t (npi_round s pre cur)) := by
  unfold npi_round
  rw [List.foldl_append]
  simp only [List.foldl_cons]
  have := npi_round_apply_notin s post
    ((npi_round s pre cur).set t (base_npi s t (npi_round s pre cur))) t h
  unfold npi_round at this
  rw [this]
  simp [Snapshot.set]

/-- Witness for the amended C1 theorem at the concrete one-game season. -/
theorem npi_round_gauss_seidel_witness :
    ("B" : String) ∉ ([] : List String) ∧
    npi_round exOneWin (["A"] ++ "B" :: []) (initial_npis exOneWin) "B" =
      some (base_npi exOneWin "B" (npi_round exOneWin ["A"] (initial_npis exOneWin))) :=
  ⟨by simp, npi_round_gauss_seidel exOneWin (initial_npis exOneWin) ["A"] [] "B" (by simp)⟩

end NPI

namespace NPI

/-- Full characterization of the convergence loop: the number of executed
rounds is bounded by the fuel, the returned snapshot is exactly that many
applications of the round function, every round strictly before the last
executed one failed the convergence test, and when the loop stops before the
cap it is because the last executed round passed it. -/
theorem npi_iterate_spec (s : EngineState) (names : List String) (thr : ℚ) :
    ∀ (n : Nat) (cur : Snapshot),
      npi_rounds_used s names thr cur n ≤ n ∧
      npi_iterate s names thr cur n =
        (npi_round s names)^[npi_rounds_used s names thr cur n] cur ∧
      (∀ j, j + 1 < npi_rounds_used s names thr cur n →
        thr ≤ max_change names ((npi_round s names)^[j] cur) ((npi_round s names)^[j + 1] cur)) ∧
      (npi_rounds_used s names thr cur n < n →
        0 < npi_rounds_used s names thr cur n ∧
        max_change names ((npi_round s names)^[npi_rounds_used s names thr cur n - 1] cur)
          ((npi_round s names)^[npi_rounds_used s names thr cur n] cur) < thr) := by
  intro n
  induction n with
  | zero =>
    intro cur
    refine ⟨Nat.le_refl 0, rfl, ?_, ?_⟩
    · intro j hj
      simp [npi_rounds_used] at hj
    · intro hlt
      simp [npi_rounds_used] at hlt
  | succ m ih =>
    intro cur
    by_cases hc : max_change names cur (npi_round s names cur) < thr
    · have hk : npi_rounds_used s names thr cur (m + 1) = 1 := by
        conv_lhs => rw [npi_rounds_used]
        rw [if_pos hc]
      have hi : npi_iterate s names thr cur (m + 1) = npi_round s names cur := by
        conv_lhs => rw [npi_iterate]
        rw [if_pos hc]
      refine ⟨by omega, ?_, ?_, ?_⟩
      · rw [hi, hk, Function.iterate_one]
      · intro j hj
        rw [hk] at hj
        omega
      · intro _
        rw [hk]
        exact ⟨by omega, by simpa using hc⟩
    · set k' := npi_rounds_used s names thr (npi_round s names cur) m with hk'
      obtain ⟨ih1, ih2, ih3, ih4⟩ := ih (npi_round s names cur)
      have hk : npi_rounds_used s names thr cur (m + 1) = 1 + k' := by
        conv_lhs => rw [npi_rounds_used]
        rw [if_neg hc]
      have hi : npi_iterate s names thr cur (m + 1) =
          npi_iterate s names thr (npi_round s names cur) m := by
        conv_lhs => rw [npi_iterate]
        rw [if_neg hc]
      refine ⟨by omega, ?_, ?_, ?_⟩
      · rw [hi, ih2, hk]
        rw [show 1 + k' = k' + 1 by omega]
        rw [Function.iterate_succ_apply]
      · intro j hj
        rw [hk] at hj
        cases j with
        | zero =>
          simpa using le_of_not_lt hc
        | succ j' =>
          have h3 := ih3 j' (by omega)
          simp only [Function.iterate_succ_apply] at h3 ⊢
          exact h3
      · intro hlt
        rw [hk] at hlt ⊢
        obtain ⟨hpos, hconv⟩ := ih4 (by omega)
        refine ⟨by omega, ?_⟩
        rw [show 1 + k' - 1 = (k' - 1) + 1 by omega, show 1 + k' = k' + 1 by omega]
        simp only [Function.iterate_succ_apply]
        exact hconv

/-- The result-assembly pass never touches `final_npis`. -/
theorem build_step_final_npis (final : Snapshot) (p : List TeamResult × EngineState)
    (n : String) : (build_step final p n).2.final_npis = p.2.final_npis := by
  unfold build_step
  simp [final_npis_modifyTeam]

theorem build_results_final_npis (names : List String) :
    ∀ (acc : List TeamResult) (s0 : EngineState) (final : Snapshot),
      (names.foldl (build_step final) (acc, s0)).2.final_npis = s0.final_npis := by
  induction names with
  | nil => intro acc s0 final; rfl
  | cons n rest ih =>
    intro acc s0 final
    simp only [List.foldl_cons]
    rw [show build_step final (acc, s0) n =
      ((build_step final (acc, s0) n).1, (build_step final (acc, s0) n).2) by rfl]
    rw [ih, build_step_final_npis]

end NPI

namespace NPI

/-- C3: the convergence loop of `calculate_npi` always terminates with a
result: it executes at most `max_iterations` rounds; the frozen final-NPI
map used for the report is exactly the round function applied that many
times to the initial estimates; every round strictly before the last
executed one had maximum change at least the threshold (so the loop stops at
the first converged round); and stopping before the cap only happens through
a converged last round.  In particular, exhausting the cap is not an error:
the final map is then the `max_iterations`-fold application. -/
theorem calculate_npi_terminates (s : EngineState) (n : Nat) (thr : ℚ)
    (h : s.teams ≠ []) :
    npi_rounds_used s (team_names s) thr (initial_npis s) n ≤ n ∧
    (calculate_npi s n thr).2.final_npis =
      (npi_round s (team_names s))^[npi_rounds_used s (team_names s) thr (initial_npis s) n]
        (initial_npis s) ∧
    (∀ j, j + 1 < npi_rounds_used s (team_names s) thr (initial_npis s) n →
      thr ≤ max_change (team_names s) ((npi_round s (team_names s))^[j] (initial_npis s))
        ((npi_round s (team_names s))^[j + 1] (initial_npis s))) ∧
    (npi_rounds_used s (team_names s) thr (initial_npis s) n < n →
      0 < npi_rounds_used s (team_names s) thr (initial_npis s) n ∧
      max_change (team_names s)
        ((npi_round s (team_names s))^[npi_rounds_used s (team_names s) thr (initial_npis s) n - 1]
          (initial_npis s))
        ((npi_round s (team_names s))^[npi_rounds_used s (team_names s) thr (initial_npis s) n]
          (initial_npis s)) < thr) := by
  obtain ⟨h1, h2, h3, h4⟩ := npi_iterate_spec s (team_names s) thr n (initial_npis s)
  refine ⟨h1, ?_, h3, h4⟩
  unfold calculate_npi
  rw [if_neg h]
  show (build_results { s with final_npis := npi_iterate s (team_names s) thr (initial_npis s) n }
    (team_names s) (npi_iterate s (team_names s) thr (initial_npis s) n)).2.final_npis = _
  unfold build_results
  rw [build_results_final_npis]
  exact h2

/-- Witness for the C3 theorem at the one-game season with cap 1. -/
theorem calculate_npi_terminates_witness :
    exOneWin.teams ≠ [] ∧
    (npi_rounds_used exOneWin (team_names exOneWin) (1 / 1000) (initial_npis exOneWin) 1 ≤ 1 ∧
    (calculate_npi exOneWin 1 (1 / 1000)).2.final_npis =
      (npi_round exOneWin (team_names exOneWin))^[npi_rounds_used exOneWin (team_names exOneWin)
        (1 / 1000) (initial_npis exOneWin) 1] (initial_npis exOneWin) ∧
    (∀ j, j + 1 < npi_rounds_used exOneWin (team_names exOneWin) (1 / 1000)
        (initial_npis exOneWin) 1 →
      (1 / 1000 : ℚ) ≤ max_change (team_names exOneWin)
        ((npi_round exOneWin (team_names exOneWin))^[j] (initial_npis exOneWin))
        ((npi_round exOneWin (team_names exOneWin))^[j + 1] (initial_npis exOneWin))) ∧
    (npi_rounds_used exOneWin (team_names exOneWin) (1 / 1000) (initial_npis exOneWin) 1 < 1 →
      0 < npi_rounds_used exOneWin (team_names exOneWin) (1 / 1000) (initial_npis exOneWin) 1 ∧
      max_change (team_names exOneWin)
        ((npi_round exOneWin (team_names exOneWin))^[npi_rounds_used exOneWin
          (team_names exOneWin) (1 / 1000) (initial_npis exOneWin) 1 - 1] (initial_npis exOneWin))
        ((npi_round exOneWin (team_names exOneWin))^[npi_rounds_used exOneWin
          (team_names exOneWin) (1 / 1000) (initial_npis exOneWin) 1] (initial_npis exOneWin)) <
        (1 / 1000 : ℚ))) :=
  ⟨by decide, calculate_npi_terminates exOneWin 1 (1 / 1000) (by decide)⟩

end NPI

namespace NPI

/-! Sorting and ranking lemmas for the output assembly. -/

theorem mem_insertByNpi (r a : TeamResult) (l : List TeamResult) :
    a ∈ insertByNpi r l ↔ a = r ∨ a ∈ l := by
  induction l with
  | nil => simp [insertByNpi]
  | cons x xs ih =>
    unfold insertByNpi
    by_cases h : r.npi ≤ x.npi
    · rw [if_pos h]
      simp only [List.mem_cons, ih]
      tauto
    · rw [if_neg h]
      simp only [List.mem_cons]

theorem insertByNpi_pairwise (r : TeamResult) (l : List TeamResult)
    (h : List.Pairwise (fun a b => b.npi ≤ a.npi) l) :
    List.Pairwise (fun a b => b.npi ≤ a.npi) (insertByNpi r l) := by
  induction l with
  | nil => simp [insertByNpi]
  | cons x xs ih =>
    obtain ⟨hx, hxs⟩ := List.pairwise_cons.mp h
    unfold insertByNpi
    by_cases hc : r.npi ≤ x.npi
    · rw [if_pos hc]
      refine List.pairwise_cons.mpr ⟨?_, ih hxs⟩
      intro y hy
      rcases (mem_insertByNpi r y xs).mp hy with hyr | hyx
      · rw [hyr]; exact hc
      · exact hx y hyx
    · rw [if_neg hc]
      refine List.pairwise_cons.mpr ⟨?_, h⟩
      intro y hy
      rcases List.mem_cons.mp hy with hyx | hyxs
      · rw [hyx]; exact le_of_not_le hc
      · exact le_trans (hx y hyxs) (le_of_not_le hc)

theorem sortByNpi_foldl_pairwise (l : List TeamResult) :
    ∀ (acc : List TeamResult), List.Pairwise (fun a b => b.npi ≤ a.npi) acc →
      List.Pairwise (fun a b => b.npi ≤ a.npi)
        (l.foldl (fun acc r => insertByNpi r acc) acc) := by
  induction l with
  | nil => intro acc h; exact h
  | cons x xs ih =>
    intro acc h
    exact ih _ (insertByNpi_pairwise x acc h)

theorem sortByNpi_pairwise (l : List TeamResult) :
    List.Pairwise (fun a b => b.npi ≤ a.npi) (sortByNpi l) :=
  sortByNpi_foldl_pairwise l [] (List.Pairwise.nil)

theorem addRanks_map_npi (l : List TeamResult) :
    ∀ i, (addRanks i l).map (fun r => r.npi) = l.map (fun r => r.npi) := by
  induction l with
  | nil => intro i; rfl
  | cons x xs ih =>
    intro i
    unfold addRanks
    simp [ih]

theorem addRanks_pairwise (l : List TeamResult) (i : Nat)
    (h : List.Pairwise (fun a b => b.npi ≤ a.npi) l) :
    List.Pairwise (fun a b => b.npi ≤ a.npi) (addRanks i l) := by
  have h1 : List.Pairwise (fun x y : ℚ => y ≤ x) ((addRanks i l).map (fun r => r.npi)) := by
    rw [addRanks_map_npi]
    exact List.pairwise_map.mpr h
  exact List.pairwise_map.mp h1

theorem addRanks_length (l : List TeamResult) :
    ∀ i, (addRanks i l).length = l.length := by
  induction l with
  | nil => intro i; rfl
  | cons x xs ih =>
    intro i
    unfold addRanks
    simp [ih]

theorem addRanks_map_rank (l : List TeamResult) :
    ∀ i, (addRanks i l).map (fun r => r.rank) = List.range' i l.length := by
  induction l with
  | nil => intro i; rfl
  | cons x xs ih =>
    intro i
    unfold addRanks
    simp only [List.map_cons, List.length_cons, List.range'_succ, ih]

/-- C7: the ranking list returned by `calculate_npi` is sorted by the final
reported NPI in non-increasing order, and the `rank` fields along the list
are exactly `1, 2, ..., N` (the 1-based positions). -/
theorem calculate_npi_sorted_and_ranked (s : EngineState) (n : Nat) (thr : ℚ) :
    List.Pairwise (fun a b : TeamResult => b.npi ≤ a.npi) (calculate_npi s n thr).1 ∧
    (calculate_npi s n thr).1.map (fun r => r.rank) =
      List.range' 1 (calculate_npi s n thr).1.length := by
  unfold calculate_npi
  by_cases h : s.teams = []
  · rw [if_pos h]
    exact ⟨List.Pairwise.nil, rfl⟩
  · rw [if_neg h]
    refine ⟨addRanks_pairwise _ 1 (sortByNpi_pairwise _), ?_⟩
    rw [addRanks_map_rank, addRanks_length]

end NPI

namespace NPI

/-- The fields of a team record that the ranking computations read
(everything except the `quality_wins` scratch list). -/
structure CoreRecord where
  wins : Nat
  losses : Nat
  ties : Nat
  opponents : List String
  games : List Game
  deriving Repr, DecidableEq

/-- Projection of a team record to its computation-relevant fields. -/
def TeamRecord.core (r : TeamRecord) : CoreRecord :=
  { wins := r.wins, losses := r.losses, ties := r.ties,
    opponents := r.opponents, games := r.games }

/-- The team table with each record projected to its core fields. -/
def coreTeams (s : EngineState) : List (String × CoreRecord) :=
  s.teams.map (fun p => (p.1, p.2.core))

/-- Two engine states that agree on everything the ranking computation
reads: same keys in the same order and equal core records. -/
def CoreEq (s t : EngineState) : Prop := coreTeams s = coreTeams t

theorem coreEq_refl (s : EngineState) : CoreEq s s := rfl

theorem coreEq_trans {s t u : EngineState} (h1 : CoreEq s t) (h2 : CoreEq t u) :
    CoreEq s u := h1.trans h2

theorem coreEq_of_final_npis (s : EngineState) (f : Snapshot) :
    CoreEq { s with final_npis := f } s := rfl

theorem findTeam_map_core_eq (l₁ : List (String × TeamRecord)) :
    ∀ (l₂ : List (String × TeamRecord)),
      l₁.map (fun p => (p.1, p.2.core)) = l₂.map (fun p => (p.1, p.2.core)) →
      ∀ n, (findTeam l₁ n).map TeamRecord.core = (findTeam l₂ n).map TeamRecord.core := by
  induction l₁ with
  | nil =>
    intro l₂ h n
    cases l₂ with
    | nil => rfl
    | cons q qs => simp at h
  | cons p ps ih =>
    intro l₂ h n
    cases l₂ with
    | nil => simp at h
    | cons q qs =>
      simp only [List.map_cons, List.cons.injEq, Prod.mk.injEq] at h
      obtain ⟨⟨hk, hc⟩, hrest⟩ := h
      unfold findTeam
      by_cases hpn : p.1 = n
      · rw [if_pos hpn, if_pos (hk ▸ hpn)]
        simp [hc]
      · rw [if_neg hpn, if_neg (hk ▸ hpn)]
        exact ih qs hrest n

theorem CoreEq.lookup_core {s t : EngineState} (h : CoreEq s t) (n : String) :
    (lookupTeam s n).core = (lookupTeam t n).core := by
  have hf := findTeam_map_core_eq s.teams t.teams h n
  unfold lookupTeam
  cases h1 : findTeam s.teams n <;> cases h2 : findTeam t.teams n <;>
    rw [h1, h2] at hf <;> simp_all

theorem CoreEq.hasTeam_eq {s t : EngineState} (h : CoreEq s t) (n : String) :
    hasTeam s n = hasTeam t n := by
  have hf := findTeam_map_core_eq s.teams t.teams h n
  unfold hasTeam
  cases h1 : findTeam s.teams n <;> cases h2 : findTeam t.teams n <;>
    rw [h1, h2] at hf <;> simp_all

theorem CoreEq.team_names_eq {s t : EngineState} (h : CoreEq s t) :
    team_names s = team_names t := by
  have h1 : (coreTeams s).map Prod.fst = (coreTeams t).map Prod.fst := by rw [h]
  simpa [coreTeams, team_names, List.map_map, Function.comp] using h1

theorem CoreEq.teams_nil_iff {s t : EngineState} (h : CoreEq s t) :
    s.teams = [] ↔ t.teams = [] := by
  have h1 : (coreTeams s).length = (coreTeams t).length := by rw [h]
  simp only [coreTeams, List.length_map] at h1
  constructor <;> intro he <;>
    [exact List.length_eq_zero.mp (by rw [← h1, he]; rfl);
     exact List.length_eq_zero.mp (by rw [h1, he]; rfl)]

end NPI

namespace NPI

/-! Congruence of every ranking computation under `CoreEq`. -/

theorem CoreEq.wp_eq {s t : EngineState} (h : CoreEq s t) (n : String) :
    calculate_winning_percentage s n = calculate_winning_percentage t n := by
  have hc := CoreEq.lookup_core h n
  have hw : (lookupTeam s n).wins = (lookupTeam t n).wins := congrArg CoreRecord.wins hc
  have hl : (lookupTeam s n).losses = (lookupTeam t n).losses := congrArg CoreRecord.losses hc
  have ht : (lookupTeam s n).ties = (lookupTeam t n).ties := congrArg CoreRecord.ties hc
  unfold calculate_winning_percentage
  simp only [hw, hl, ht]

theorem CoreEq.sos_eq {s t : EngineState} (h : CoreEq s t) (n : String) (snap : Snapshot) :
    calculate_strength_of_schedule s n snap = calculate_strength_of_schedule t n snap := by
  have hc := CoreEq.lookup_core h n
  have ho : (lookupTeam s n).opponents = (lookupTeam t n).opponents :=
    congrArg CoreRecord.opponents hc
  unfold calculate_strength_of_schedule
  simp only [ho]

theorem CoreEq.qwb_eq {s t : EngineState} (h : CoreEq s t) (n : String) (snap : Snapshot) :
    calculate_quality_win_bonus s n snap = calculate_quality_win_bonus t n snap := by
  have hc := CoreEq.lookup_core h n
  have hg : (lookupTeam s n).games = (lookupTeam t n).games := congrArg CoreRecord.games hc
  unfold calculate_quality_win_bonus
  simp only [hg]

theorem CoreEq.base_npi_eq {s t : EngineState} (h : CoreEq s t) (n : String) (snap : Snapshot) :
    base_npi s n snap = base_npi t n snap := by
  unfold base_npi
  rw [CoreEq.wp_eq h, CoreEq.sos_eq h]

theorem CoreEq.npi_round_eq {s t : EngineState} (h : CoreEq s t) (names : List String) :
    ∀ cur, npi_round s names cur = npi_round t names cur := by
  induction names with
  | nil => intro cur; rfl
  | cons n rest ih =>
    intro cur
    unfold npi_round at ih ⊢
    simp only [List.foldl_cons]
    rw [CoreEq.base_npi_eq h]
    exact ih _

theorem CoreEq.initial_npis_eq {s t : EngineState} (h : CoreEq s t) :
    initial_npis s = initial_npis t := by
  unfold initial_npis
  rw [CoreEq.team_names_eq h]
  have hgen : ∀ (l : List String) (acc : Snapshot),
      l.foldl (fun acc n => acc.set n (calculate_winning_percentage s n * 100)) acc =
      l.foldl (fun acc n => acc.set n (calculate_winning_percentage t n * 100)) acc := by
    intro l
    induction l with
    | nil => intro acc; rfl
    | cons n rest ih =>
      intro acc
      simp only [List.foldl_cons]
      rw [CoreEq.wp_eq h]
      exact ih _
  exact hgen _ _

theorem CoreEq.npi_iterate_eq {s t : EngineState} (h : CoreEq s t) (names : List String)
    (thr : ℚ) : ∀ (n : Nat) (cur : Snapshot),
    npi_iterate s names thr cur n = npi_iterate t names thr cur n := by
  intro n
  induction n with
  | zero => intro cur; rfl
  | succ m ih =>
    intro cur
    unfold npi_iterate
    rw [CoreEq.npi_round_eq h]
    by_cases hc : max_change names cur (npi_round t names cur) < thr
    · rw [if_pos hc, if_pos hc]
    · rw [if_neg hc, if_neg hc]
      exact ih _

theorem modifyTeam_setQW_coreEq {s t : EngineState} (h : CoreEq s t) (n : String)
    (q : List QualityWin) :
    CoreEq (modifyTeam s n (fun r => { r with quality_wins := q }))
      (modifyTeam t n (fun r => { r with quality_wins := q })) := by
  unfold CoreEq coreTeams modifyTeam
  rw [CoreEq.hasTeam_eq h n]
  cases hb : hasTeam t n
  · simp only [Bool.false_eq_true, if_false, List.map_append]
    exact congrArg (fun l => l ++ [(n, TeamRecord.core { TeamRecord.fresh with quality_wins := q })]) h
  · simp only [if_true, List.map_map]
    have hfun : ∀ (l : List (String × TeamRecord)),
        l.map ((fun p => (p.1, p.2.core)) ∘ (fun p => if p.1 = n then (p.1, { p.2 with quality_wins := q }) else p)) =
        l.map (fun p => (p.1, p.2.core)) := by
      intro l
      apply List.map_congr_left
      intro p _
      by_cases hp : p.1 = n
      · simp [Function.comp, hp, TeamRecord.core]
      · simp [Function.comp, hp]
    rw [hfun, hfun]
    exact h

theorem modifyTeam_setQW_coreEq_self (s : EngineState) (n : String)
    (q : List QualityWin) (hn : hasTeam s n = true) :
    CoreEq (modifyTeam s n (fun r => { r with quality_wins := q })) s := by
  unfold CoreEq coreTeams modifyTeam
  rw [hn]
  simp only [if_true, List.map_map]
  apply List.map_congr_left
  intro p _
  by_cases hp : p.1 = n
  · simp [Function.comp, hp, TeamRecord.core]
  · simp [Function.comp, hp]

end NPI

namespace NPI

theorem lookupTeam_modify_self (s : EngineState) (n : String) (f : TeamRecord → TeamRecord) :
    lookupTeam (modifyTeam s n f) n = f (lookupTeam s n) := by
  rw [lookupTeam_modifyTeam]
  simp

theorem build_step_congr (final : Snapshot) (n : String)
    (p q : List TeamResult × EngineState) (h1 : p.1 = q.1) (h : CoreEq p.2 q.2) :
    (build_step final p n).1 = (build_step final q n).1 ∧
    CoreEq (build_step final p n).2 (build_step final q n).2 := by
  have hwp := CoreEq.wp_eq h n
  have hsos := CoreEq.sos_eq h n final
  have hq := CoreEq.qwb_eq h n final
  have hcore := CoreEq.lookup_core h n
  have hw : (lookupTeam p.2 n).wins = (lookupTeam q.2 n).wins := congrArg CoreRecord.wins hcore
  have hl : (lookupTeam p.2 n).losses = (lookupTeam q.2 n).losses :=
    congrArg CoreRecord.losses hcore
  have hti : (lookupTeam p.2 n).ties = (lookupTeam q.2 n).ties := congrArg CoreRecord.ties hcore
  constructor
  · unfold build_step
    dsimp only
    rw [lookupTeam_modify_self, lookupTeam_modify_self]
    simp only [h1, hwp, hsos, hq, hw, hl, hti]
  · unfold build_step
    dsimp only
    rw [hq]
    exact modifyTeam_setQW_coreEq h n _

theorem build_foldl_congr (final : Snapshot) (names : List String) :
    ∀ (p q : List TeamResult × EngineState), p.1 = q.1 → CoreEq p.2 q.2 →
      (names.foldl (build_step final) p).1 = (names.foldl (build_step final) q).1 ∧
      CoreEq (names.foldl (build_step final) p).2 (names.foldl (build_step final) q).2 := by
  induction names with
  | nil => intro p q h1 h2; exact ⟨h1, h2⟩
  | cons n rest ih =>
    intro p q h1 h2
    simp only [List.foldl_cons]
    obtain ⟨g1, g2⟩ := build_step_congr final n p q h1 h2
    exact ih _ _ g1 g2

theorem build_foldl_coreEq_self (final : Snapshot) (names : List String) :
    ∀ (p : List TeamResult × EngineState) (s : EngineState), CoreEq p.2 s →
      (∀ n ∈ names, hasTeam s n = true) →
      CoreEq (names.foldl (build_step final) p).2 s := by
  induction names with
  | nil => intro p s h _; exact h
  | cons n rest ih =>
    intro p s h hmem
    simp only [List.foldl_cons]
    apply ih _ s ?_ (fun m hm => hmem m (List.mem_cons_of_mem n hm))
    have hp : hasTeam p.2 n = true := by
      rw [CoreEq.hasTeam_eq h n]
      exact hmem n (List.mem_cons_self n rest)
    unfold build_step
    dsimp only
    exact coreEq_trans (modifyTeam_setQW_coreEq_self p.2 n _ hp) h

theorem findTeam_isSome_of_mem (l : List (String × TeamRecord)) (n : String) :
    n ∈ l.map Prod.fst → (findTeam l n).isSome = true := by
  induction l with
  | nil => intro h; simp at h
  | cons p ps ih =>
    intro h
    unfold findTeam
    by_cases hp : p.1 = n
    · rw [if_pos hp]
      rfl
    · rw [if_neg hp]
      apply ih
      simp only [List.map_cons, List.mem_cons] at h
      rcases h with h | h
      · exact absurd h.symm hp
      · exact h

theorem hasTeam_of_mem_team_names (s : EngineState) (n : String)
    (h : n ∈ team_names s) : hasTeam s n = true :=
  findTeam_isSome_of_mem s.teams n h

theorem calculate_npi_state_coreEq (s : EngineState) (n : Nat) (thr : ℚ) :
    CoreEq (calculate_npi s n thr).2 s := by
  unfold calculate_npi
  by_cases h : s.teams = []
  · rw [if_pos h]
    exact coreEq_refl s
  · rw [if_neg h]
    dsimp only
    unfold build_results
    apply build_foldl_coreEq_self _ _ _ s (coreEq_of_final_npis s _)
    intro m hm
    exact hasTeam_of_mem_team_names s m hm

theorem CoreEq.calculate_npi_fst_eq {s t : EngineState} (h : CoreEq s t)
    (n : Nat) (thr : ℚ) :
    (calculate_npi s n thr).1 = (calculate_npi t n thr).1 := by
  unfold calculate_npi
  by_cases he : s.teams = []
  · rw [if_pos he, if_pos ((CoreEq.teams_nil_iff h).mp he)]
  · rw [if_neg he, if_neg (fun ht => he ((CoreEq.teams_nil_iff h).mpr ht))]
    dsimp only
    unfold build_results
    have hnames := CoreEq.team_names_eq h
    have hiter : npi_iterate s (team_names s) thr (initial_npis s) n =
        npi_iterate t (team_names t) thr (initial_npis t) n := by
      rw [hnames, CoreEq.initial_npis_eq h, CoreEq.npi_iterate_eq h]
    rw [hiter, hnames]
    have hb := build_foldl_congr (npi_iterate t (team_names t) thr (initial_npis t) n)
      (team_names t)
      ([], { s with final_npis := npi_iterate t (team_names t) thr (initial_npis t) n })
      ([], { t with final_npis := npi_iterate t (team_names t) thr (initial_npis t) n })
      rfl h
    rw [hb.1]

/-- C9: calling `calculate_npi` a second time on the state left behind by a
first call (which rewrote `final_npis` and every team's `quality_wins`)
returns the identical ranking list — same teams in the same order with equal
values in every field. -/
theorem calculate_npi_idempotent (s : EngineState) (n : Nat) (thr : ℚ) :
    (calculate_npi ((calculate_npi s n thr).2) n thr).1 = (calculate_npi s n thr).1 :=
  CoreEq.calculate_npi_fst_eq (calculate_npi_state_coreEq s n thr) n thr

end NPI

namespace NPI

/-- The data-model invariant: counters match the opponent- and game-list
lengths. -/
def Balanced (r : TeamRecord) : Prop :=
  r.wins + r.losses + r.ties = r.opponents.length ∧
  r.opponents.length = r.games.length

/-- Every team record of the engine (present or fresh) is balanced. -/
def AllBalanced (s : EngineState) : Prop := ∀ n, Balanced (lookupTeam s n)

theorem allBalanced_of_coreEq {s t : EngineState} (h : CoreEq s t)
    (hb : AllBalanced t) : AllBalanced s := by
  intro m
  have hc := CoreEq.lookup_core h m
  have hw : (lookupTeam s m).wins = (lookupTeam t m).wins := congrArg CoreRecord.wins hc
  have hl : (lookupTeam s m).losses = (lookupTeam t m).losses := congrArg CoreRecord.losses hc
  have hti : (lookupTeam s m).ties = (lookupTeam t m).ties := congrArg CoreRecord.ties hc
  have ho : (lookupTeam s m).opponents = (lookupTeam t m).opponents :=
    congrArg CoreRecord.opponents hc
  have hg : (lookupTeam s m).games = (lookupTeam t m).games := congrArg CoreRecord.games hc
  unfold Balanced
  rw [hw, hl, hti, ho, hg]
  exact hb m

theorem add_game_preserves_allBalanced (s : EngineState) (hteam ateam : String)
    (x y : Int) (hb : AllBalanced s) : AllBalanced (add_game s hteam ateam x y) := by
  intro m
  have hbm := hb m
  have hbh := hb hteam
  have hba := hb ateam
  unfold Balanced at hbm hbh hba ⊢
  unfold add_game
  dsimp only
  rcases lt_trichotomy x y with hlt | heq | hgt
  · have h1 : ¬ x > y := by omega
    have h2 : y > x := by omega
    simp only [h1, h2, if_false, if_true, ite_true, ite_false, lookupTeam_modifyTeam]
    by_cases hma : m = ateam <;> by_cases hmh : m = hteam <;>
      simp_all [List.length_append] <;> omega
  · have h1 : ¬ x > y := by omega
    have h2 : ¬ y > x := by omega
    simp only [h1, h2, if_false, if_true, ite_true, ite_false, lookupTeam_modifyTeam]
    by_cases hma : m = ateam <;> by_cases hmh : m = hteam <;>
      simp_all [List.length_append] <;> omega
  · have h1 : x > y := hgt
    have h2 : ¬ y > x := by omega
    simp only [h1, h2, if_false, if_true, ite_true, ite_false, lookupTeam_modifyTeam]
    by_cases hma : m = ateam <;> by_cases hmh : m = hteam <;>
      simp_all [List.length_append] <;> omega

theorem get_team_summary_state_coreEq (s : EngineState) (n : String) :
    CoreEq (get_team_summary s n).2 s := by
  unfold get_team_summary
  cases hn : hasTeam s n
  · simp only [hn, Bool.false_eq_true, if_false]
    exact coreEq_refl s
  · simp only [hn, if_true]
    exact modifyTeam_setQW_coreEq_self s n _ hn

/-- The public operations of the engine. -/
inductive Op where
  | addGame (home away : String) (home_score away_score : Int)
  | calcNpi (max_iterations : Nat) (convergence_threshold : ℚ)
  | teamSummary (name : String)

/-- State transition of one engine operation. -/
def applyOp (s : EngineState) : Op → EngineState
  | Op.addGame h a x y => add_game s h a x y
  | Op.calcNpi n thr => (calculate_npi s n thr).2
  | Op.teamSummary n => (get_team_summary s n).2

/-- Running a sequence of engine operations. -/
def runOps (s : EngineState) (ops : List Op) : EngineState := ops.foldl applyOp s

theorem applyOp_preserves_allBalanced (s : EngineState) (op : Op)
    (hb : AllBalanced s) : AllBalanced (applyOp s op) := by
  cases op with
  | addGame h a x y => exact add_game_preserves_allBalanced s h a x y hb
  | calcNpi n thr => exact allBalanced_of_coreEq (calculate_npi_state_coreEq s n thr) hb
  | teamSummary n => exact allBalanced_of_coreEq (get_team_summary_state_coreEq s n) hb

theorem init_allBalanced : AllBalanced EngineState.init := by
  intro m
  exact ⟨rfl, rfl⟩

/-- C8: after any sequence of engine operations starting from a fresh engine
(game ingestions — including self-games, should they be submitted — ranking
computations and summary lookups), every team record satisfies
`wins + losses + ties = opponents.length = games.length`. -/
theorem engine_invariant_balanced (ops : List Op) :
    AllBalanced (runOps EngineState.init ops) := by
  have hgen : ∀ (l : List Op) (s : EngineState), AllBalanced s → AllBalanced (runOps s l) := by
    intro l
    induction l with
    | nil => intro s h; exact h
    | cons op rest ih =>
      intro s h
      exact ih _ (applyOp_preserves_allBalanced s op h)
  exact hgen ops _ init_allBalanced

end NPI

namespace NPI

theorem hasTeam_add_game (s : EngineState) (hteam ateam : String) (x y : Int) (m : String) :
    hasTeam (add_game s hteam ateam x y) m =
      (hasTeam s m || decide (m = hteam) || decide (m = ateam)) := by
  unfold add_game
  dsimp only
  rcases lt_trichotomy x y with hlt | heq | hgt
  · have h1 : ¬ x > y := by omega
    have h2 : y > x := by omega
    simp only [h1, h2, if_false, if_true, ite_true, ite_false, hasTeam_modifyTeam]
    by_cases hma : m = ateam <;> by_cases hmh : m = hteam <;> simp [hma, hmh]
  · have h1 : ¬ x > y := by omega
    have h2 : ¬ y > x := by omega
    simp only [h1, h2, if_false, if_true, ite_true, ite_false, hasTeam_modifyTeam]
    by_cases hma : m = ateam <;> by_cases hmh : m = hteam <;> simp [hma, hmh]
  · have h2 : ¬ y > x := by omega
    simp only [hgt, h2, if_false, if_true, ite_true, ite_false, hasTeam_modifyTeam]
    by_cases hma : m = ateam <;> by_cases hmh : m = hteam <;> simp [hma, hmh]

/-- A batch of game tuples fed to `add_game` in order. -/
def runGames (s : EngineState) (gs : List (String × String × Int × Int)) : EngineState :=
  gs.foldl (fun s g => add_game s g.1 g.2.1 g.2.2.1 g.2.2.2) s

/-- All team names appearing in a batch of game tuples. -/
def gameNames (gs : List (String × String × Int × Int)) : List String :=
  gs.foldr (fun g acc => g.1 :: g.2.1 :: acc) []

theorem hasTeam_runGames (gs : List (String × String × Int × Int)) :
    ∀ (s : EngineState) (m : String),
      hasTeam (runGames s gs) m = (hasTeam s m || decide (m ∈ gameNames gs)) := by
  induction gs with
  | nil =>
    intro s m
    simp [runGames, gameNames]
  | cons g rest ih =>
    intro s m
    unfold runGames at ih ⊢
    simp only [List.foldl_cons]
    rw [ih, hasTeam_add_game]
    unfold gameNames
    simp only [List.foldr_cons]
    by_cases h1 : m = g.1 <;> by_cases h2 : m = g.2.1 <;>
      simp [h1, h2, List.mem_cons]

/-- C10: querying `get_team_summary` for a name that never appeared in any
ingested game returns `None` and leaves the team table untouched (the
membership test does not create a record); querying a name that did appear
returns a populated summary. -/
theorem get_team_summary_unknown_team (gs : List (String × String × Int × Int))
    (name : String) :
    (name ∉ gameNames gs →
      get_team_summary (runGames EngineState.init gs) name =
        (none, runGames EngineState.init gs)) ∧
    (name ∈ gameNames gs →
      ((get_team_summary (runGames EngineState.init gs) name).1).isSome = true) := by
  have hh : hasTeam (runGames EngineState.init gs) name = decide (name ∈ gameNames gs) := by
    rw [hasTeam_runGames]
    rfl
  constructor
  · intro hnot
    unfold get_team_summary
    rw [hh]
    simp [hnot]
  · intro hin
    unfold get_team_summary
    rw [hh]
    simp [hin]

/-- Witness for C10 on the one-game batch: the unknown name C yields `None`
with the state unchanged, the known name A yields a populated summary. -/
theorem get_team_summary_unknown_team_witness :
    (("C" : String) ∉ gameNames [("A", "B", (1 : Int), (0 : Int))] ∧
      get_team_summary (runGames EngineState.init [("A", "B", (1 : Int), (0 : Int))]) "C" =
        (none, runGames EngineState.init [("A", "B", (1 : Int), (0 : Int))])) ∧
    (("A" : String) ∈ gameNames [("A", "B", (1 : Int), (0 : Int))] ∧
      ((get_team_summary (runGames EngineState.init [("A", "B", (1 : Int), (0 : Int))]) "A").1).isSome = true) :=
  ⟨⟨by decide, (get_team_summary_unknown_team [("A", "B", (1 : Int), (0 : Int))] "C").1 (by decide)⟩,
   ⟨by decide, (get_team_summary_unknown_team [("A", "B", (1 : Int), (0 : Int))] "A").2 (by decide)⟩⟩

end NPI
